import Mathlib

/-!
Verification of the factorization core of `factor_benchmark.py`
(Factorization-Complexity-Benchmark).

The two boundary operations are embedded from the source:

* `trial_division_python` — the deterministic trial-division factorizer
  (source lines 20–35).
* `pollards_rho` — the probabilistic Pollard rho factorizer with a bounded
  retry policy of 5 attempts (source lines 56–96).

Randomness is modelled by an oracle `rand : Nat → Nat × Nat` giving, for each
restart attempt, the pair of draws `(x0, c)` produced by the two
`random.randint` calls of that attempt.  The unbounded `while g == 1` loop is
embedded with an explicit fuel parameter; the termination theorem shows that
fuel `n * n` always suffices, so the fueled function agrees with the source
loop on every call the source can make.
-/

/-- One step of the quadratic recurrence, as the source computes it:
`(pow(t, 2, n) + c) % n`, i.e. `(t ^ 2 % n + c) % n`. -/
def rhoStep (n c t : Nat) : Nat := (t ^ 2 % n + c) % n

/-- Outcome of one attempt of the inner `while g == 1` loop:
a nontrivial gcd was returned, the gcd collapsed to `n` (the source does
`break` to retry), or the fuel ran out (cannot happen with fuel `≥ n * n`). -/
inductive LoopResult where
  | found (g : Nat)
  | cycle
  | fuelOut
deriving DecidableEq, Repr

/-- The inner loop of one Pollard rho attempt (source lines 79–94):
advance the tortoise one step and the hare two, take
`g = gcd(|x - y|, n)`; on `g == n` break (retry), on `g > 1` return `g`,
otherwise continue. -/
def rhoLoop (n c : Nat) : Nat → Nat → Nat → LoopResult
  | 0, _, _ => .fuelOut
  | fuel + 1, x, y =>
    let x1 := rhoStep n c x
    let y1 := rhoStep n c (rhoStep n c y)
    let g := Nat.gcd (Nat.dist x1 y1) n
    if g = n then .cycle
    else if 1 < g then .found g
    else rhoLoop n c fuel x1 y1

/-- The retry ladder of `pollards_rho` (source lines 72–96): up to
`max_retries = 5` attempts, attempt number `5 - k` drawing
`(x0, c) = rand (k - 1)` counting `k` down from 5; when every attempt fails,
return `n`. -/
def rhoAttempts (rand : Nat → Nat × Nat) (n fuel : Nat) : Nat → Nat
  | 0 => n
  | k + 1 =>
    let x0 := (rand k).1
    let c := (rand k).2
    match rhoLoop n c fuel x0 x0 with
    | .found g => g
    | _ => rhoAttempts rand n fuel k

/-- `pollards_rho` (source lines 56–96): fast paths for multiples of 2 and 3,
then the bounded-retry random search. -/
def pollards_rho (rand : Nat → Nat × Nat) (fuel n : Nat) : Nat :=
  if n % 2 = 0 then 2
  else if n % 3 = 0 then 3
  else rhoAttempts rand n fuel 5

/-- The odd-candidate loop of trial division (source lines 30–35):
`i = 3, 5, 7, …` while `i * i ≤ n`; return the first `i` dividing `n`,
else `n`. -/
def tdLoop (n : Nat) (i : Nat) : Nat :=
  if i * i ≤ n then
    if n % i = 0 then i
    else tdLoop n (i + 2)
  else n
termination_by n + 2 - i
decreasing_by
  have hi : i ≤ i * i := by
    cases i with
    | zero => exact Nat.le_refl 0
    | succ j => exact Nat.le_mul_of_pos_left _ (Nat.succ_pos j)
  omega

/-- `trial_division_python` (source lines 20–35). -/
def trial_division_python (n : Nat) : Nat :=
  if n % 2 = 0 then 2 else tdLoop n 3

/-! ### The state machine of spec §4.3, for the refinement claim C2.

These definitions follow the spec's words, to be compared with the
source-derived ones above. -/

/-- Spec §4.3 step 2, tortoise advance as the spec writes it:
`x := (x² + c) mod n`. -/
def specRhoStep (n c t : Nat) : Nat := (t ^ 2 + c) % n

/-- Spec §4.3 ITERATING: repeat while `g == 1` (advance tortoise once, hare
twice, recompute `g`); on exit, `g == n` means the attempt is abandoned
(RETRY) and otherwise `g` is returned (FACTOR_FOUND). -/
def specRhoIterate (n c : Nat) : Nat → Nat → Nat → Nat → LoopResult
  | 0, _, _, _ => .fuelOut
  | fuel + 1, x, y, g =>
    if g = 1 then
      let x1 := specRhoStep n c x
      let y1 := specRhoStep n c (specRhoStep n c y)
      specRhoIterate n c fuel x1 y1 (Nat.gcd (Nat.dist x1 y1) n)
    else if g = n then .cycle
    else .found g

/-- Spec §4.3 INIT/RETRY/EXHAUSTED ladder: each attempt starts at
`y = x0`, `g = 1` with fresh draws; RETRY while attempts remain; EXHAUSTED
returns `n`. -/
def specRhoSearch (rand : Nat → Nat × Nat) (n fuel : Nat) : Nat → Nat
  | 0 => n
  | k + 1 =>
    let x0 := (rand k).1
    let c := (rand k).2
    match specRhoIterate n c fuel x0 x0 1 with
    | .found g => g
    | _ => specRhoSearch rand n fuel k

/-- Spec §4.2/§4.3 preconditions plus the state machine, the spec-side whole
of `pollards_rho`. -/
def spec_pollards_rho (rand : Nat → Nat × Nat) (fuel n : Nat) : Nat :=
  if n % 2 = 0 then 2
  else if n % 3 = 0 then 3
  else specRhoSearch rand n fuel 5

/-! ### Invariants of the trial-division loop -/

/-- Whatever `tdLoop` returns divides `n` (the loop only ever returns a
candidate passing `n % i == 0`, or `n` itself). -/
theorem tdLoop_mod (n i : Nat) : n % tdLoop n i = 0 := by
  induction i using tdLoop.induct n with
  | case1 i h1 h2 => rw [tdLoop]; simp [h1, h2]
  | case2 i h1 h2 ih => rw [tdLoop, if_pos h1, if_neg h2]; exact ih
  | case3 i h1 => rw [tdLoop, if_neg h1]; exact Nat.mod_self n

/-- Shape of a `tdLoop` result: it is `n`, or a candidate `d` with
`i ≤ d`, `d * d ≤ n`, `n % d = 0`, reached from `i` in steps of 2. -/
theorem tdLoop_shape (n i : Nat) :
    tdLoop n i = n ∨
      (i ≤ tdLoop n i ∧ tdLoop n i * tdLoop n i ≤ n ∧ n % tdLoop n i = 0 ∧
        (tdLoop n i - i) % 2 = 0) := by
  induction i using tdLoop.induct n with
  | case1 i h1 h2 =>
    right
    rw [tdLoop, if_pos h1, if_pos h2]
    omega
  | case2 i h1 h2 ih =>
    rw [tdLoop, if_pos h1, if_neg h2]
    rcases ih with h | h
    · left; exact h
    · right
      refine ⟨by omega, h.2.1, h.2.2.1, ?_⟩
      omega
  | case3 i h1 =>
    left
    rw [tdLoop, if_neg h1]

/-- Minimality of the `tdLoop` result: no candidate congruent to `i` mod 2 in
the scanned range is smaller than the returned value. -/
theorem tdLoop_min (n i : Nat) :
    ∀ j, i ≤ j → (j - i) % 2 = 0 → j * j ≤ n → n % j = 0 → tdLoop n i ≤ j := by
  induction i using tdLoop.induct n with
  | case1 i h1 h2 =>
    intro j hij _ _ _
    rw [tdLoop, if_pos h1, if_pos h2]
    exact hij
  | case2 i h1 h2 ih =>
    intro j hij hpar hjj hjd
    rw [tdLoop, if_pos h1, if_neg h2]
    have hne : j ≠ i := by rintro rfl; exact h2 hjd
    exact ih j (by omega) (by omega) hjj hjd
  | case3 i h1 =>
    intro j hij _ hjj _
    exact absurd (Nat.le_trans (Nat.mul_le_mul hij hij) hjj) h1

/-- On odd input, `trial_division_python` is the odd-candidate loop from 3. -/
theorem trial_division_python_odd (n : Nat) (h : n % 2 = 1) :
    trial_division_python n = tdLoop n 3 := by
  unfold trial_division_python
  rw [if_neg (by omega)]

/-! ### Invariants of the Pollard rho loop -/

/-- When the inner loop returns `found g`, then `g` is a nontrivial divisor:
`g` is a gcd with `n`, hence divides `n`; the `g == n` branch was not taken,
and the `g > 1` guard held. -/
theorem rhoLoop_found_nontrivial (n c : Nat) (hn : 2 ≤ n) :
    ∀ fuel x y g, rhoLoop n c fuel x y = .found g →
      1 < g ∧ g < n ∧ n % g = 0 := by
  intro fuel
  induction fuel with
  | zero => intro x y g h; simp [rhoLoop] at h
  | succ fuel ih =>
    intro x y g h
    rw [rhoLoop] at h
    set g1 := Nat.gcd (Nat.dist (rhoStep n c x) (rhoStep n c (rhoStep n c y))) n with hg1
    by_cases hgn : g1 = n
    · simp [hgn] at h
    · by_cases hg2 : 1 < g1
      · rw [if_neg hgn, if_pos hg2] at h
        injection h with hg
        subst hg
        have hdvd : g1 ∣ n := Nat.gcd_dvd_right _ _
        have hle : g1 ≤ n := Nat.le_of_dvd (by omega) hdvd
        exact ⟨hg2, by omega, Nat.mod_eq_zero_of_dvd hdvd⟩
      · rw [if_neg hgn, if_neg hg2] at h
        exact ih _ _ _ h

/-- The retry ladder either fails with `n` or yields a nontrivial divisor. -/
theorem rhoAttempts_spec (rand : Nat → Nat × Nat) (n fuel : Nat) (hn : 2 ≤ n) :
    ∀ k, rhoAttempts rand n fuel k = n ∨
      (1 < rhoAttempts rand n fuel k ∧ rhoAttempts rand n fuel k < n ∧
        n % rhoAttempts rand n fuel k = 0) := by
  intro k
  induction k with
  | zero => left; rfl
  | succ k ih =>
    rw [rhoAttempts]
    rcases hL : rhoLoop n (rand k).2 fuel (rand k).1 (rand k).1 with g | _ | _
    · right
      simpa using rhoLoop_found_nontrivial n (rand k).2 hn fuel _ _ g hL
    · simpa using ih
    · simpa using ih

/-! ### Claim theorems -/

/-- C1: for every integer `n ≥ 2`, if `trial_division(n)` or
`pollards_rho(n)` returns a value `d` with `d ≠ n`, then `1 < d < n` and
`n mod d = 0` — the result is a nontrivial divisor of `n`. -/
theorem C1_divisor_validity (n : Nat) (hn : 2 ≤ n) :
    (trial_division_python n ≠ n →
      1 < trial_division_python n ∧ trial_division_python n < n ∧
        n % trial_division_python n = 0) ∧
    (∀ rand fuel, pollards_rho rand fuel n ≠ n →
      1 < pollards_rho rand fuel n ∧ pollards_rho rand fuel n < n ∧
        n % pollards_rho rand fuel n = 0) := by
  constructor
  · intro hne
    unfold trial_division_python at *
    by_cases h2 : n % 2 = 0
    · rw [if_pos h2] at *
      exact ⟨by omega, by omega, h2⟩
    · rw [if_neg h2] at *
      rcases tdLoop_shape n 3 with he | ⟨hd3, hdd, hdmod, _⟩
      · exact absurd he hne
      · have h1 : tdLoop n 3 * 3 ≤ tdLoop n 3 * tdLoop n 3 :=
          Nat.mul_le_mul (Nat.le_refl _) hd3
        exact ⟨by omega, by omega, hdmod⟩
  · intro rand fuel hne
    unfold pollards_rho at *
    by_cases h2 : n % 2 = 0
    · rw [if_pos h2] at *
      exact ⟨by omega, by omega, h2⟩
    · rw [if_neg h2] at *
      by_cases h3 : n % 3 = 0
      · rw [if_pos h3] at *
        exact ⟨by omega, by omega, h3⟩
      · rw [if_neg h3] at *
        rcases rhoAttempts_spec rand n fuel hn 5 with he | hd
        · exact absurd he hne
        · exact hd

/-- Witness for C1 at the concrete input `n = 15` on the Pollard rho side
(the multiple-of-three fast path returns 3 ≠ 15). -/
theorem C1_divisor_validity_witness :
    2 ≤ 15 ∧ pollards_rho (fun _ => (2, 1)) 0 15 ≠ 15 ∧
      (1 < pollards_rho (fun _ => (2, 1)) 0 15 ∧
        pollards_rho (fun _ => (2, 1)) 0 15 < 15 ∧
        15 % pollards_rho (fun _ => (2, 1)) 0 15 = 0) :=
  ⟨by norm_num, by decide,
    (C1_divisor_validity 15 (by norm_num)).2 (fun _ => (2, 1)) 0 (by decide)⟩

/-- C6: `trial_division` terminates for every `n ≥ 2` (it is a total Lean
function, defined by well-founded recursion on `n + 2 - i`), and the value
`d` it returns always satisfies `n mod d = 0` (worst case `d = n`). -/
theorem C6_trial_division_always_divides (n : Nat) (hn : 2 ≤ n) :
    n % trial_division_python n = 0 := by
  unfold trial_division_python
  by_cases h2 : n % 2 = 0
  · rw [if_pos h2]; exact h2
  · rw [if_neg h2]; exact tdLoop_mod n 3

/-- Witness for C6 at `n = 7`. -/
theorem C6_trial_division_always_divides_witness :
    2 ≤ 7 ∧ 7 % trial_division_python 7 = 0 :=
  ⟨by norm_num, C6_trial_division_always_divides 7 (by norm_num)⟩

/-- C7: for every even `n > 2`, both `trial_division(n)` and
`pollards_rho(n)` return 2. -/
theorem C7_even_fast_path (n : Nat) (h2 : 2 < n) (he : n % 2 = 0) :
    trial_division_python n = 2 ∧
      ∀ rand fuel, pollards_rho rand fuel n = 2 := by
  constructor
  · unfold trial_division_python; rw [if_pos he]
  · intro rand fuel; unfold pollards_rho; rw [if_pos he]

/-- Witness for C7 at `n = 4`. -/
theorem C7_even_fast_path_witness :
    2 < 4 ∧ (4 : Nat) % 2 = 0 ∧ trial_division_python 4 = 2 ∧
      pollards_rho (fun _ => (2, 1)) 0 4 = 2 :=
  ⟨by norm_num, by norm_num, (C7_even_fast_path 4 (by norm_num) (by norm_num)).1,
    (C7_even_fast_path 4 (by norm_num) (by norm_num)).2 (fun _ => (2, 1)) 0⟩

/-- C8: for every `n > 3` with `n mod 3 = 0` and `n` not even,
`pollards_rho(n)` returns 3. -/
theorem C8_three_fast_path (n : Nat) (h3 : 3 < n) (hm : n % 3 = 0)
    (ho : n % 2 ≠ 0) :
    ∀ rand fuel, pollards_rho rand fuel n = 3 := by
  intro rand fuel
  unfold pollards_rho
  rw [if_neg ho, if_pos hm]

/-- Witness for C8 at `n = 9`. -/
theorem C8_three_fast_path_witness :
    3 < 9 ∧ (9 : Nat) % 3 = 0 ∧ (9 : Nat) % 2 ≠ 0 ∧
      pollards_rho (fun _ => (2, 1)) 0 9 = 3 :=
  ⟨by norm_num, by norm_num, by norm_num,
    C8_three_fast_path 9 (by norm_num) (by norm_num) (by norm_num)
      (fun _ => (2, 1)) 0⟩

/-- C10: for every `n ≥ 2`, `pollards_rho(n) ≥ 2` — it never returns 0 or 1;
in particular `pollards_rho(2) = 2` and `pollards_rho(3) = 3`: for
`n ∈ {2, 3}` the fast paths return `n` itself. -/
theorem C10_never_below_two :
    (∀ n rand fuel, 2 ≤ n → 2 ≤ pollards_rho rand fuel n) ∧
    (∀ rand fuel, pollards_rho rand fuel 2 = 2) ∧
    (∀ rand fuel, pollards_rho rand fuel 3 = 3) := by
  refine ⟨?_, ?_, ?_⟩
  · intro n rand fuel hn
    unfold pollards_rho
    by_cases h2 : n % 2 = 0
    · simp [h2]
    · rw [if_neg h2]
      by_cases h3 : n % 3 = 0
      · simp [h3]
      · rw [if_neg h3]
        rcases rhoAttempts_spec rand n fuel hn 5 with he | hd <;> omega
  · intro rand fuel; simp [pollards_rho]
  · intro rand fuel; simp [pollards_rho]

/-- Witness for C10 at `n = 7` (the ≥ 2 conjunct has a hypothesis). -/
theorem C10_never_below_two_witness :
    2 ≤ 7 ∧ 2 ≤ pollards_rho (fun _ => (2, 1)) 0 7 :=
  ⟨by norm_num, C10_never_below_two.1 7 (fun _ => (2, 1)) 0 (by norm_num)⟩

/-- C3: for every odd `n ≥ 3`, `trial_division(n)` returns the first
(smallest) odd candidate `i = 3, 5, 7, …` with `i * i ≤ n` dividing `n`,
and returns `n` itself when no such candidate exists; in particular
`trial_division(15) = 3`, and for every prime `p`,
`trial_division(p) = p`. -/
theorem C3_first_odd_candidate :
    (∀ n, 3 ≤ n → n % 2 = 1 →
      ((∃ j, 3 ≤ j ∧ j % 2 = 1 ∧ j * j ≤ n ∧ n % j = 0) →
        3 ≤ trial_division_python n ∧ trial_division_python n % 2 = 1 ∧
          trial_division_python n * trial_division_python n ≤ n ∧
          n % trial_division_python n = 0 ∧
          ∀ j, 3 ≤ j → j % 2 = 1 → j * j ≤ n → n % j = 0 →
            trial_division_python n ≤ j) ∧
      ((¬ ∃ j, 3 ≤ j ∧ j % 2 = 1 ∧ j * j ≤ n ∧ n % j = 0) →
        trial_division_python n = n)) ∧
    trial_division_python 15 = 3 ∧
    (∀ p, Nat.Prime p → trial_division_python p = p) := by
  refine ⟨?_, ?_, ?_⟩
  · intro n hn3 hodd
    constructor
    · rintro ⟨j, hj3, hjodd, hjj, hjd⟩
      rw [trial_division_python_odd n hodd]
      have hmin := tdLoop_min n 3 j hj3 (by omega) hjj hjd
      have hj3j : j * 3 ≤ j * j := Nat.mul_le_mul (Nat.le_refl j) hj3
      have hjn : j < n := by omega
      rcases tdLoop_shape n 3 with he | ⟨hd3, hdd, hdmod, hdpar⟩
      · omega
      · exact ⟨hd3, by omega, hdd, hdmod, fun j h1 h2 h3 h4 =>
          tdLoop_min n 3 j h1 (by omega) h3 h4⟩
    · intro hno
      rw [trial_division_python_odd n hodd]
      rcases tdLoop_shape n 3 with he | ⟨hd3, hdd, hdmod, hdpar⟩
      · exact he
      · exact absurd ⟨_, hd3, by omega, hdd, hdmod⟩ hno
  · rw [trial_division_python_odd 15 (by norm_num)]
    have hmin := tdLoop_min 15 3 3 (Nat.le_refl 3) (by norm_num) (by norm_num)
      (by norm_num)
    rcases tdLoop_shape 15 3 with he | ⟨hd3, _, _, _⟩ <;> omega
  · intro p hp
    by_cases hp2 : p % 2 = 0
    · have h2 : (2 : Nat) ∣ p := Nat.dvd_of_mod_eq_zero hp2
      have hp2' : p = 2 := by
        rcases (Nat.Prime.eq_one_or_self_of_dvd hp 2 h2) with h | h <;> omega
      subst hp2'
      unfold trial_division_python
      norm_num
    · have hple := hp.two_le
      rw [trial_division_python_odd p (by omega)]
      rcases tdLoop_shape p 3 with he | ⟨hd3, hdd, hdmod, _⟩
      · exact he
      · exfalso
        have hdvd := Nat.dvd_of_mod_eq_zero hdmod
        rcases hp.eq_one_or_self_of_dvd _ hdvd with h | h
        · omega
        · have h1 : p * 2 ≤ p * p := Nat.mul_le_mul (Nat.le_refl p) hple
          rw [h] at hdd
          have h2 : p * 2 ≤ p := Nat.le_trans h1 hdd
          omega

/-- Witness for C3 at `n = 9`, candidate `j = 3`. -/
theorem C3_first_odd_candidate_witness :
    3 ≤ 9 ∧ (9 : Nat) % 2 = 1 ∧ trial_division_python 9 ≤ 3 ∧
      3 ≤ trial_division_python 9 := by
  have h := (C3_first_odd_candidate.1 9 (by norm_num) (by norm_num)).1
    ⟨3, by norm_num⟩
  exact ⟨by norm_num, by norm_num,
    h.2.2.2.2 3 (by norm_num) (by norm_num) (by norm_num) (by norm_num), h.1⟩

/-- C4: for every prime `n > 3`, `pollards_rho(n)` returns `n` itself (the
legacy failure sentinel) after its retry budget is exhausted; it never
returns a false divisor of a prime input.  For prime `n` every gcd with `n`
is 1 or `n`, so no attempt can return `found g`. -/
theorem C4_prime_returns_self (n : Nat) (hp : Nat.Prime n) (h3 : 3 < n) :
    ∀ rand fuel, pollards_rho rand fuel n = n := by
  have hn : 2 ≤ n := hp.two_le
  have h2 : n % 2 ≠ 0 := by
    intro h
    rcases hp.eq_one_or_self_of_dvd 2 (Nat.dvd_of_mod_eq_zero h) with h' | h' <;>
      omega
  have h3' : n % 3 ≠ 0 := by
    intro h
    rcases hp.eq_one_or_self_of_dvd 3 (Nat.dvd_of_mod_eq_zero h) with h' | h' <;>
      omega
  intro rand fuel
  unfold pollards_rho
  rw [if_neg h2, if_neg h3']
  have hall : ∀ k, rhoAttempts rand n fuel k = n := by
    intro k
    induction k with
    | zero => rfl
    | succ k ih =>
      rw [rhoAttempts]
      rcases hL : rhoLoop n (rand k).2 fuel (rand k).1 (rand k).1 with g | _ | _
      · obtain ⟨hg1, hgn, hmod⟩ :=
          rhoLoop_found_nontrivial n (rand k).2 hn fuel _ _ g hL
        rcases hp.eq_one_or_self_of_dvd g (Nat.dvd_of_mod_eq_zero hmod) with
          h | h <;> omega
      · simpa using ih
      · simpa using ih
  exact hall 5

/-- Witness for C4 at the prime `n = 5` with fuel 25. -/
theorem C4_prime_returns_self_witness :
    Nat.Prime 5 ∧ 3 < 5 ∧ pollards_rho (fun _ => (2, 1)) 25 5 = 5 :=
  ⟨by norm_num, by norm_num,
    C4_prime_returns_self 5 (by norm_num) (by norm_num) (fun _ => (2, 1)) 25⟩

/-- The retry ladder only reads the draws of its own (at most `k ≤ 5`)
attempts: two oracles agreeing on the first five draws give equal results. -/
theorem rhoAttempts_congr (rand1 rand2 : Nat → Nat × Nat) (n fuel : Nat)
    (h : ∀ j, j < 5 → rand1 j = rand2 j) :
    ∀ k, k ≤ 5 → rhoAttempts rand1 n fuel k = rhoAttempts rand2 n fuel k := by
  intro k
  induction k with
  | zero => intro _; rfl
  | succ k ih =>
    intro hk
    rw [rhoAttempts, rhoAttempts, h k (by omega)]
    rcases hL : rhoLoop n (rand2 k).2 fuel (rand2 k).1 (rand2 k).1 with
      g | _ | _ <;> simp [hL, ih (by omega)]

/-- C5: `pollards_rho` performs at most 5 independent random restart
attempts per call — its result depends only on the first five oracle draws —
and when all five attempts fail to produce a nontrivial divisor it
returns `n`. -/
theorem C5_retry_budget :
    (∀ rand1 rand2 fuel n, (∀ j, j < 5 → rand1 j = rand2 j) →
      pollards_rho rand1 fuel n = pollards_rho rand2 fuel n) ∧
    (∀ rand fuel n, n % 2 ≠ 0 → n % 3 ≠ 0 →
      (∀ j, j < 5 → ∀ g,
        rhoLoop n (rand j).2 fuel (rand j).1 (rand j).1 ≠ .found g) →
      pollards_rho rand fuel n = n) := by
  constructor
  · intro rand1 rand2 fuel n h
    unfold pollards_rho
    split_ifs with h2 h3
    · rfl
    · rfl
    · exact rhoAttempts_congr rand1 rand2 n fuel h 5 (Nat.le_refl 5)
  · intro rand fuel n h2 h3 hfail
    unfold pollards_rho
    rw [if_neg h2, if_neg h3]
    have hall : ∀ k, k ≤ 5 → rhoAttempts rand n fuel k = n := by
      intro k
      induction k with
      | zero => intro _; rfl
      | succ k ih =>
        intro hk
        rw [rhoAttempts]
        rcases hL : rhoLoop n (rand k).2 fuel (rand k).1 (rand k).1 with
          g | _ | _
        · exact absurd hL (hfail k (by omega) g)
        · simpa using ih (by omega)
        · simpa using ih (by omega)
    exact hall 5 (Nat.le_refl 5)

/-- Witness for C5: two oracles agreeing on draws 0–4 but not on draw 5
give the same result on `n = 25`. -/
theorem C5_retry_budget_witness :
    (∀ j, j < 5 → (fun _ => ((2 : Nat), (1 : Nat))) j =
      (fun j => if j < 5 then ((2 : Nat), (1 : Nat)) else (0, 0)) j) ∧
    pollards_rho (fun _ => (2, 1)) 0 25 =
      pollards_rho (fun j => if j < 5 then (2, 1) else (0, 0)) 0 25 := by
  have hagree : ∀ j, j < 5 → (fun _ => ((2 : Nat), (1 : Nat))) j =
      (fun j => if j < 5 then ((2 : Nat), (1 : Nat)) else (0, 0)) j := by
    intro j hj
    simp [hj]
  exact ⟨hagree, C5_retry_budget.1 _ _ 0 25 hagree⟩

/-! ### Refinement: the source code against the state machine of spec §4.3 -/

/-- The spec's tortoise step `(x² + c) mod n` equals the source's
`(pow(x, 2, n) + c) % n`. -/
theorem specRhoStep_eq_rhoStep (n c t : Nat) :
    specRhoStep n c t = rhoStep n c t := by
  unfold specRhoStep rhoStep
  rw [Nat.mod_add_mod]

/-- One-step unfolding of the source inner loop. -/
theorem rhoLoop_succ (n c fuel x y : Nat) :
    rhoLoop n c (fuel + 1) x y =
      if Nat.gcd (Nat.dist (rhoStep n c x) (rhoStep n c (rhoStep n c y))) n = n
      then .cycle
      else if 1 < Nat.gcd (Nat.dist (rhoStep n c x)
        (rhoStep n c (rhoStep n c y))) n
      then .found (Nat.gcd (Nat.dist (rhoStep n c x)
        (rhoStep n c (rhoStep n c y))) n)
      else rhoLoop n c fuel (rhoStep n c x) (rhoStep n c (rhoStep n c y)) := rfl

/-- One-step unfolding of the spec ITERATING machine. -/
theorem specRhoIterate_succ (n c fuel x y g : Nat) :
    specRhoIterate n c (fuel + 1) x y g =
      if g = 1 then
        specRhoIterate n c fuel (specRhoStep n c x)
          (specRhoStep n c (specRhoStep n c y))
          (Nat.gcd (Nat.dist (specRhoStep n c x)
            (specRhoStep n c (specRhoStep n c y))) n)
      else if g = n then .cycle
      else .found g := rfl

/-- The spec ITERATING machine started at `g = 1` runs the source inner loop
(one fuel unit ahead, since the spec tests `g` before stepping while the
source tests after stepping). -/
theorem specRhoIterate_eq_rhoLoop (n c : Nat) (hn : 2 ≤ n) :
    ∀ fuel x y, specRhoIterate n c (fuel + 1) x y 1 = rhoLoop n c fuel x y := by
  intro fuel
  induction fuel with
  | zero =>
    intro x y
    rw [specRhoIterate_succ, if_pos rfl]
    rfl
  | succ fuel ih =>
    intro x y
    rw [specRhoIterate_succ, if_pos rfl]
    simp only [specRhoStep_eq_rhoStep]
    rw [rhoLoop_succ]
    set g1 := Nat.gcd (Nat.dist (rhoStep n c x) (rhoStep n c (rhoStep n c y))) n
      with hg1
    by_cases hone : g1 = 1
    · rw [if_neg (show ¬g1 = n by omega), if_neg (show ¬1 < g1 by omega), hone]
      exact ih _ _
    · rw [specRhoIterate_succ, if_neg hone]
      have hpos : 0 < g1 := by
        rw [hg1]
        exact Nat.gcd_pos_of_pos_right _ (by omega)
      by_cases hgn : g1 = n
      · rw [if_pos hgn, if_pos hgn]
      · rw [if_neg hgn, if_neg hgn, if_pos (show 1 < g1 by omega)]

/-- The spec INIT/RETRY/EXHAUSTED ladder equals the source retry ladder. -/
theorem specRhoSearch_eq_rhoAttempts (rand : Nat → Nat × Nat) (n fuel : Nat)
    (hn : 2 ≤ n) :
    ∀ k, specRhoSearch rand n (fuel + 1) k = rhoAttempts rand n fuel k := by
  intro k
  induction k with
  | zero => rfl
  | succ k ih =>
    rw [specRhoSearch, rhoAttempts,
      specRhoIterate_eq_rhoLoop n (rand k).2 hn fuel (rand k).1 (rand k).1]
    rcases hL : rhoLoop n (rand k).2 fuel (rand k).1 (rand k).1 with g | _ | _ <;>
      simp [hL, ih]

/-- C2: each attempt of `pollards_rho(n)` (for `n ≥ 2` with draws
`x₀ ∈ [2, n−1]`, `c ∈ [1, n−1]`) implements the spec's state machine:
`y = x₀`, `g = 1`; while `g = 1` advance the tortoise once and the hare
twice by `t ↦ (t² + c) mod n` and set `g = gcd(|x − y|, n)`; on
`1 < g < n` return `g` immediately, on `g = n` abandon the attempt and
retry with fresh draws, returning `n` when the budget is exhausted. -/
theorem C2_state_machine_refinement (n : Nat) (hn : 2 ≤ n)
    (rand : Nat → Nat × Nat)
    (hrand : ∀ j, 2 ≤ (rand j).1 ∧ (rand j).1 ≤ n - 1 ∧
      1 ≤ (rand j).2 ∧ (rand j).2 ≤ n - 1) :
    (∀ c t, specRhoStep n c t = rhoStep n c t) ∧
    (∀ c fuel x y, specRhoIterate n c (fuel + 1) x y 1 = rhoLoop n c fuel x y) ∧
    (∀ fuel, spec_pollards_rho rand (fuel + 1) n = pollards_rho rand fuel n) := by
  refine ⟨fun c t => specRhoStep_eq_rhoStep n c t,
    fun c fuel x y => specRhoIterate_eq_rhoLoop n c hn fuel x y, fun fuel => ?_⟩
  unfold spec_pollards_rho pollards_rho
  split_ifs with h2 h3
  · rfl
  · rfl
  · exact specRhoSearch_eq_rhoAttempts rand n fuel hn 5

/-- Witness for C2 at `n = 5` with in-range draws `(x₀, c) = (2, 1)`. -/
theorem C2_state_machine_refinement_witness :
    2 ≤ 5 ∧
    (∀ j : Nat, 2 ≤ ((fun _ : Nat => ((2 : Nat), (1 : Nat))) j).1 ∧
      ((fun _ : Nat => ((2 : Nat), (1 : Nat))) j).1 ≤ 5 - 1 ∧
      1 ≤ ((fun _ : Nat => ((2 : Nat), (1 : Nat))) j).2 ∧
      ((fun _ : Nat => ((2 : Nat), (1 : Nat))) j).2 ≤ 5 - 1) ∧
    spec_pollards_rho (fun _ => (2, 1)) 26 5 =
      pollards_rho (fun _ => (2, 1)) 25 5 := by
  have hr : ∀ j : Nat, 2 ≤ ((fun _ : Nat => ((2 : Nat), (1 : Nat))) j).1 ∧
      ((fun _ : Nat => ((2 : Nat), (1 : Nat))) j).1 ≤ 5 - 1 ∧
      1 ≤ ((fun _ : Nat => ((2 : Nat), (1 : Nat))) j).2 ∧
      ((fun _ : Nat => ((2 : Nat), (1 : Nat))) j).2 ≤ 5 - 1 := by
    intro j
    norm_num
  exact ⟨by norm_num, hr,
    (C2_state_machine_refinement 5 (by norm_num) (fun _ => (2, 1)) hr).2.2 25⟩

/-! ### Termination of the inner loop (claim C9)

The tortoise at step `i` is `f^[i] x₀` and the hare is `f^[2i] x₀` for
`f = rhoStep n c`.  All values of `f` lie below `n`, so the orbit repeats
within `n + 1` steps, any repeat gives eventual periodicity, and some index
`i ≤ n * n` has `f^[i] x₀ = f^[2i] x₀`; there `gcd(|x − y|, n) = gcd(0, n)
= n ≠ 1` and the loop exits. -/

/-- A repeat `f^[a] x = f^[a + d] x` propagates to every later index. -/
theorem iterate_period_step (f : Nat → Nat) (x a d : Nat)
    (h : f^[a] x = f^[a + d] x) :
    ∀ t, a ≤ t → f^[t + d] x = f^[t] x := by
  intro t hat
  obtain ⟨s, rfl⟩ := Nat.exists_eq_add_of_le hat
  have e1 : a + s + d = s + (a + d) := by omega
  have e2 : a + s = s + a := by omega
  rw [e1, e2, Function.iterate_add_apply, ← h, ← Function.iterate_add_apply]

/-- A repeat of gap `d` propagates to every multiple of `d` past `a`. -/
theorem iterate_period_mul (f : Nat → Nat) (x a d : Nat)
    (h : f^[a] x = f^[a + d] x) :
    ∀ k t, a ≤ t → f^[t + k * d] x = f^[t] x := by
  intro k
  induction k with
  | zero => intro t ht; simp
  | succ k ih =>
    intro t ht
    have e : t + (k + 1) * d = t + k * d + d := by ring
    rw [e, iterate_period_step f x a d h (t + k * d) (by omega), ih t ht]

/-- From any repeat `f^[a] x = f^[b] x` with `a < b`, the tortoise and the
hare meet: some `i ∈ [a, (b − a)·a]` has `f^[i] x = f^[2i] x`. -/
theorem iterate_meet_of_repeat (f : Nat → Nat) (x a b : Nat)
    (hab : a < b) (heq : f^[a] x = f^[b] x) :
    ∃ i, a ≤ i ∧ i ≤ (b - a) * a ∧ f^[i] x = f^[i + i] x := by
  have hd : 0 < b - a := by omega
  have h : f^[a] x = f^[a + (b - a)] x := by
    rw [show a + (b - a) = b by omega]
    exact heq
  have hai : a ≤ (b - a) * a := Nat.le_mul_of_pos_left a hd
  have hm := iterate_period_mul f x a (b - a) h a ((b - a) * a) hai
  refine ⟨(b - a) * a, hai, Nat.le_refl _, ?_⟩
  have e : (b - a) * a + (b - a) * a = (b - a) * a + a * (b - a) := by ring
  rw [e]
  exact hm.symm

/-- Pigeonhole: the orbit of `rhoStep n c` meets itself, and hence the
tortoise and hare meet at some index `1 ≤ i ≤ n * n`. -/
theorem rho_orbit_meet (n c x : Nat) (hn : 2 ≤ n) :
    ∃ i, 1 ≤ i ∧ i ≤ n * n ∧
      (rhoStep n c)^[i] x = (rhoStep n c)^[i + i] x := by
  have hcard : (Finset.range n).card < (Finset.range (n + 1)).card := by simp
  have hmaps : ∀ k ∈ Finset.range (n + 1),
      (fun k => (rhoStep n c)^[k + 1] x) k ∈ Finset.range n := by
    intro k _
    simp only [Finset.mem_range, Function.iterate_succ_apply']
    exact Nat.mod_lt _ (by omega)
  obtain ⟨a, ha, b, hb, hne, heq⟩ :=
    Finset.exists_ne_map_eq_of_card_lt_of_maps_to hcard hmaps
  simp only [Finset.mem_range] at ha hb
  rcases Nat.lt_or_ge a b with hab | hab
  · obtain ⟨i, hi1, hi2, hmeet⟩ :=
      iterate_meet_of_repeat (rhoStep n c) x (a + 1) (b + 1) (by omega) heq
    refine ⟨i, by omega, ?_, hmeet⟩
    exact Nat.le_trans hi2 (Nat.mul_le_mul (by omega) (by omega))
  · have hba : b < a := by omega
    obtain ⟨i, hi1, hi2, hmeet⟩ :=
      iterate_meet_of_repeat (rhoStep n c) x (b + 1) (a + 1) (by omega) heq.symm
    refine ⟨i, by omega, ?_, hmeet⟩
    exact Nat.le_trans hi2 (Nat.mul_le_mul (by omega) (by omega))

/-- If the tortoise and hare (with the hare `i` steps ahead of a common
start) meet within the fuel bound, the inner loop exits — at a meet the gcd
is `gcd(0, n) = n`, so the `g == n` branch fires if nothing fired before. -/
theorem rhoLoop_exits (n c : Nat) :
    ∀ fuel x y, (∃ i, 1 ≤ i ∧ i ≤ fuel ∧
      (rhoStep n c)^[i] x = (rhoStep n c)^[i + i] y) →
      rhoLoop n c fuel x y ≠ .fuelOut := by
  intro fuel
  induction fuel with
  | zero =>
    rintro x y ⟨i, hi1, hi2, _⟩
    omega
  | succ fuel ih =>
    rintro x y ⟨i, hi1, hi2, hmeet⟩
    rw [rhoLoop_succ]
    by_cases hgn :
        Nat.gcd (Nat.dist (rhoStep n c x) (rhoStep n c (rhoStep n c y))) n = n
    · rw [if_pos hgn]
      simp
    · rw [if_neg hgn]
      by_cases hg2 :
          1 < Nat.gcd (Nat.dist (rhoStep n c x) (rhoStep n c (rhoStep n c y))) n
      · rw [if_pos hg2]
        simp
      · rw [if_neg hg2]
        rcases Nat.lt_or_ge i 2 with hi | hi
        · exfalso
          have hieq : i = 1 := by omega
          subst hieq
          have hxy : rhoStep n c x = rhoStep n c (rhoStep n c y) := by
            have h1 := hmeet
            simp only [Function.iterate_one] at h1
            rw [show (1 : Nat) + 1 = 2 by rfl] at h1
            simpa [Function.iterate_succ_apply, Function.iterate_one] using h1
          apply hgn
          rw [hxy, Nat.dist_self, Nat.gcd_zero_left]
        · apply ih
          have e1 : (rhoStep n c)^[i] x =
              (rhoStep n c)^[i - 1] (rhoStep n c x) := by
            conv_lhs => rw [show i = i - 1 + 1 by omega]
            exact Function.iterate_succ_apply _ _ _
          have e2 : (rhoStep n c)^[i + i] y =
              (rhoStep n c)^[i - 1 + (i - 1)]
                (rhoStep n c (rhoStep n c y)) := by
            conv_lhs => rw [show i + i = i - 1 + (i - 1) + 1 + 1 by omega]
            rw [Function.iterate_succ_apply, Function.iterate_succ_apply]
          rw [e1, e2] at hmeet
          exact ⟨i - 1, by omega, by omega, hmeet⟩

/-- C9: every call `pollards_rho(n)` with `n ≥ 2` terminates — the inner
while loop of each attempt always exits within `n * n` iterations, because
the tortoise and hare sequences (both iterating `t ↦ (t² + c) mod n` from
the same start) eventually meet, at which point
`g = gcd(|x − y|, n) = gcd(0, n) = n ≠ 1`. -/
theorem C9_inner_loop_terminates (n c x fuel : Nat) (hn : 2 ≤ n)
    (hfuel : n * n ≤ fuel) :
    (∃ i, 1 ≤ i ∧ i ≤ n * n ∧
      (rhoStep n c)^[i] x = (rhoStep n c)^[i + i] x) ∧
    rhoLoop n c fuel x x ≠ LoopResult.fuelOut := by
  obtain ⟨i, hi1, hi2, hmeet⟩ := rho_orbit_meet n c x hn
  exact ⟨⟨i, hi1, hi2, hmeet⟩,
    rhoLoop_exits n c fuel x x ⟨i, hi1, by omega, hmeet⟩⟩

/-- Witness for C9: at `n = 5`, `c = 1`, start `x = 2`, fuel `25 = 5 * 5`,
the inner loop does not run out of fuel. -/
theorem C9_inner_loop_terminates_witness :
    2 ≤ 5 ∧ 5 * 5 ≤ 25 ∧ rhoLoop 5 1 25 2 2 ≠ LoopResult.fuelOut :=
  ⟨by norm_num, by norm_num,
    (C9_inner_loop_terminates 5 1 2 25 (by norm_num) (by norm_num)).2⟩
